import Mathlib

/-!
Verification of a generic constraint-satisfaction framework with
backtracking search (files csp.py, queens.py, testCsp.py).

Python dictionaries are modelled as insertion-ordered association lists
with unique keys; Python exceptions (LookupError, IndexError) are
modelled with Except; the unbounded recursion of backtracking_search is
modelled with an explicit fuel parameter that bounds recursion depth,
instantiated at the top level with a provably sufficient amount
(one more than the number of problem variables, since every recursive
call strictly decreases the number of unassigned variables).
-/

namespace Csp

variable {V D : Type} [DecidableEq V]

/-- Lookup of a key in a Python-style dict, modelled as the first matching
entry of an association list. -/
def lookup : List (V × D) → V → Option D
  | [], _ => none
  | (k, x) :: rest, v => if k = v then some x else lookup rest v

/-- Membership test of a key, the Python operator "in" on a dict. -/
def hasKey (a : List (V × D)) (v : V) : Bool :=
  (lookup a v).isSome

/-- The key list of a dict, in insertion order. -/
def keys (a : List (V × D)) : List V :=
  a.map Prod.fst

/-- Python dict item assignment d[v] = x: replace the value of an existing
key in place, otherwise append the new binding at the end. -/
def dictInsert : List (V × D) → V → D → List (V × D)
  | [], v, x => [(v, x)]
  | (k, y) :: rest, v, x => if k = v then (k, x) :: rest else (k, y) :: dictInsert rest v x

/-- A constraint (class Constraint of csp.py): the list of variables it
mentions and its satisfied predicate over an assignment. -/
structure Constraint (V D : Type) where
  vars : List V
  satisfied : List (V × D) → Bool

/-- A constraint-satisfaction problem (class CSP of csp.py): the declared
variable list, the domain of each variable, and the constraint registry
indexed by variable.  The constructor of the class guarantees that every
declared variable has a domain entry, so domains is total here. -/
structure CSP (V D : Type) where
  vars : List V
  domains : V → List D
  constraints : V → List (Constraint V D)

/-- The loop body of CSP.consistent: check the listed constraints in order
and stop at the first violated one. -/
def allSatisfied : List (Constraint V D) → List (V × D) → Bool
  | [], _ => true
  | c :: rest, a => if c.satisfied a then allSatisfied rest a else false

/-- CSP.consistent: check exactly the constraints registered for the given
variable against the assignment. -/
def consistent (csp : CSP V D) (v : V) (a : List (V × D)) : Bool :=
  allSatisfied (csp.constraints v) a

/-- The local variable unassigned of CSP.backtracking_search: the problem
variables not yet present in the assignment, in declared order. -/
def unassigned (csp : CSP V D) (assignment : List (V × D)) : List V :=
  csp.vars.filter (fun v => ! hasKey assignment v)

/-- The value loop of CSP.backtracking_search: for each domain value of the
chosen variable in declared order, extend a copy of the assignment with the
binding, recurse when the extension is consistent, propagate the first
complete result found, and report absence when the loop is exhausted.
The recursive search is passed in as a function. -/
def btLoop (csp : CSP V D)
    (search : List (V × D) → Except String (Option (List (V × D))))
    (first : V) : List D → List (V × D) → Except String (Option (List (V × D)))
  | [], _ => .ok none
  | value :: rest, assignment =>
    let localAssignment := dictInsert assignment first value
    if consistent csp first localAssignment then
      match search localAssignment with
      | .error e => .error e
      | .ok (some result) => .ok (some result)
      | .ok none => btLoop csp search first rest assignment
    else
      btLoop csp search first rest assignment

/-- CSP.backtracking_search with an explicit fuel parameter bounding the
recursion depth.  A call with an incomplete assignment whose unassigned
list is empty reproduces the IndexError of unassigned[0]. -/
def btFuel (csp : CSP V D) : Nat → List (V × D) → Except String (Option (List (V × D)))
  | 0, _ => .error "fuel exhausted"
  | fuel + 1, assignment =>
    if assignment.length = csp.vars.length then
      .ok (some assignment)
    else
      match unassigned csp assignment with
      | [] => .error "IndexError: list index out of range"
      | first :: _ => btLoop csp (btFuel csp fuel) first (csp.domains first) assignment

/-- CSP.backtracking_search: the fuel one more than the number of problem
variables is always sufficient, because each recursive call strictly
shrinks the unassigned list. -/
def backtracking_search (csp : CSP V D) (assignment : List (V × D)) :
    Except String (Option (List (V × D))) :=
  btFuel csp (csp.vars.length + 1) assignment

/-- CSP.backtracking_search_2 of testCsp.py: identical to
backtracking_search except that it indexes unassigned[1], the second
unassigned variable, and its loop recurses into backtracking_search. -/
def backtracking_search_2 (csp : CSP V D) (assignment : List (V × D)) :
    Except String (Option (List (V × D))) :=
  if assignment.length = csp.vars.length then
    .ok (some assignment)
  else
    match unassigned csp assignment with
    | _ :: second :: _ =>
      btLoop csp (backtracking_search csp) second (csp.domains second) assignment
    | _ => .error "IndexError: list index out of range"

/-- The loop of CSP.add_constraint: walk the variables mentioned by the
constraint in order; raise LookupError at the first one that is not a
declared problem variable, otherwise append the constraint to the registry
entry of that variable.  The pair returned is the raised error, if any,
together with the state of the problem when the call finishes. -/
def addConstraintGo (c : Constraint V D) :
    List V → CSP V D → Option String × CSP V D
  | [], csp => (none, csp)
  | v :: rest, csp =>
    if v ∈ csp.vars then
      addConstraintGo c rest
        { csp with constraints := fun w =>
            if w = v then csp.constraints v ++ [c] else csp.constraints w }
    else
      (some "LookupError: Variable in constraint not in CSP", csp)

/-- CSP.add_constraint. -/
def add_constraint (csp : CSP V D) (c : Constraint V D) : Option String × CSP V D :=
  addConstraintGo c c.vars csp

/-- The Python expression range(a, b) over integers. -/
def intRange (a b : Int) : List Int :=
  (List.range (b - a).toNat).map (fun k => a + Int.ofNat k)

/-- QueensConstraint.satisfied of queens.py: for every assigned column q1c
with row q1r, and every column q2c from q1c + 1 up to the number of board
columns that is also assigned a row q2r, the rows must differ and the
absolute column distance must differ from the absolute row distance. -/
def queensSatisfied (columns : List Int) (assignment : List (Int × Int)) : Bool :=
  assignment.all (fun q1 =>
    (intRange (q1.1 + 1) (Int.ofNat columns.length + 1)).all (fun q2c =>
      match lookup assignment q2c with
      | none => true
      | some q2r =>
        decide (¬ q1.2 = q2r) && decide (¬ (q1.1 - q2c).natAbs = (q1.2 - q2r).natAbs)))

/-- Class QueensConstraint of queens.py as a Constraint value. -/
def QueensConstraint (columns : List Int) : Constraint Int Int :=
  { vars := columns, satisfied := queensSatisfied columns }

/-!
Heap model of the search.  Python dictionaries are mutable objects passed
by reference; to state that backtracking_search never mutates the dict a
caller passes in, the search is replayed over an explicit store of dict
objects addressed by natural numbers.  Line 74 of csp.py allocates a fresh
copy of the current dict, line 75 mutates only that fresh object, and the
recursive call receives the fresh reference.
-/

/-- The store of dict objects; an address is an index into the list. -/
abbrev Store (V D : Type) := List (List (V × D))

/-- Dereference an address in the store. -/
def storeGet (store : Store V D) (ref : Nat) : List (V × D) :=
  store.getD ref []

/-- The value loop of CSP.backtracking_search over the store: the dict
copy allocates a new object at the end of the store, the item assignment
mutates that new object in place, and the recursion receives its address.
Objects abandoned by backtracking stay in the store untouched. -/
def btHeapLoop (csp : CSP V D)
    (recur : Nat → Store V D → Except String (Option (List (V × D))) × Store V D)
    (first : V) : List D → Nat → Store V D →
      Except String (Option (List (V × D))) × Store V D
  | [], _, store => (.ok none, store)
  | value :: rest, ref, store =>
    let assignment := storeGet store ref
    let localRef := store.length
    let store1 := (store ++ [assignment]).set localRef (dictInsert assignment first value)
    if consistent csp first (storeGet store1 localRef) then
      match recur localRef store1 with
      | (.error e, store2) => (.error e, store2)
      | (.ok (some result), store2) => (.ok (some result), store2)
      | (.ok none, store2) => btHeapLoop csp recur first rest ref store2
    else
      btHeapLoop csp recur first rest ref store1

/-- CSP.backtracking_search over the store, with the same fuel discipline
as btFuel: the argument is the address of the dict object passed in. -/
def btHeap (csp : CSP V D) : Nat → Nat → Store V D →
    Except String (Option (List (V × D))) × Store V D
  | 0, _, store => (.error "fuel exhausted", store)
  | fuel + 1, ref, store =>
    let assignment := storeGet store ref
    if assignment.length = csp.vars.length then
      (.ok (some assignment), store)
    else
      match unassigned csp assignment with
      | [] => (.error "IndexError: list index out of range", store)
      | first :: _ => btHeapLoop csp (btHeap csp fuel) first (csp.domains first) ref store

/-- CSP.backtracking_search on a dict object held in the store. -/
def backtracking_search_heap (csp : CSP V D) (ref : Nat) (store : Store V D) :
    Except String (Option (List (V × D))) × Store V D :=
  btHeap csp (csp.vars.length + 1) ref store

/-!
Specification-side search, written from the words of the spec (section
4.2): select the first variable in declared order that is not yet present
in the assignment; for each candidate value of its domain in declared
order, build the trial assignment as the current assignment plus the one
binding, recurse when the trial is consistent, and propagate the first
complete assignment found; report absence when every candidate fails.
-/

/-- Selection policy of the spec: the first variable, in the declared
order of the problem, not yet present in the assignment. -/
def selectVariable (csp : CSP V D) (assignment : List (V × D)) : Option V :=
  csp.vars.find? (fun v => ! hasKey assignment v)

/-- The branch step of the spec: try the candidate values in declared
domain order, recursing on consistent trial assignments, first found wins. -/
def specTryValues (csp : CSP V D)
    (recur : List (V × D) → Option (List (V × D)))
    (v : V) : List D → List (V × D) → Option (List (V × D))
  | [], _ => none
  | value :: rest, assignment =>
    let trial := dictInsert assignment v value
    if consistent csp v trial then
      match recur trial with
      | some result => some result
      | none => specTryValues csp recur v rest assignment
    else
      specTryValues csp recur v rest assignment

/-- The search of the spec, with the same fuel discipline as btFuel. -/
def specSearchFuel (csp : CSP V D) : Nat → List (V × D) → Option (List (V × D))
  | 0, _ => none
  | fuel + 1, assignment =>
    if assignment.length = csp.vars.length then
      some assignment
    else
      match selectVariable csp assignment with
      | none => none
      | some v => specTryValues csp (specSearchFuel csp fuel) v (csp.domains v) assignment

/-- The search of the spec started with sufficient fuel. -/
def specSearch (csp : CSP V D) (assignment : List (V × D)) : Option (List (V × D)) :=
  specSearchFuel csp (csp.vars.length + 1) assignment

/-- One store extends another without touching the objects that already
existed: all old addresses still hold their old dict objects. -/
def StorePreserves (s s2 : Store V D) : Prop :=
  s.length ≤ s2.length ∧ ∀ i, i < s.length → s2[i]? = s[i]?

/-! Concrete problem instances used to exercise the theorems. -/

/-- A constraint demanding different values for the variables 1 and 2,
tolerating assignments in which either variable is absent. -/
def neqC : Constraint Nat Nat :=
  { vars := [1, 2],
    satisfied := fun a =>
      match lookup a 1, lookup a 2 with
      | some x, some y => decide (¬ x = y)
      | _, _ => true }

/-- A two-variable problem over the domain {0, 1} demanding different
values for its variables. -/
def cspNeq : CSP Nat Nat :=
  { vars := [1, 2],
    domains := fun _ => [0, 1],
    constraints := fun w => if w = 1 then [neqC] else if w = 2 then [neqC] else [] }

/-- A one-variable problem with a singleton domain and no constraints. -/
def cspZero : CSP Nat Nat :=
  { vars := [1], domains := fun _ => [0], constraints := fun _ => [] }

/-- A one-variable problem whose variable has an empty domain. -/
def cspEmptyDom : CSP Nat Nat :=
  { vars := [1], domains := fun _ => [], constraints := fun _ => [] }

/-- A constraint mentioning the undeclared variable 2 of cspZero. -/
def badC : Constraint Nat Nat :=
  { vars := [1, 2], satisfied := fun _ => true }

/-! Basic facts about the dict model. -/

theorem lookup_dictInsert (a : List (V × D)) (f : V) (x : D) (v : V) :
    lookup (dictInsert a f x) v = if v = f then some x else lookup a v := by
  induction a with
  | nil =>
    by_cases h : v = f
    · subst h
      simp [dictInsert, lookup]
    · have h2 : ¬ f = v := fun he => h he.symm
      simp [dictInsert, lookup, h, h2]
  | cons p rest ih =>
    obtain ⟨k, y⟩ := p
    by_cases hk : k = f
    · subst hk
      by_cases hv : v = k
      · subst hv
        simp [dictInsert, lookup]
      · have hv2 : ¬ k = v := fun he => hv he.symm
        simp [dictInsert, lookup, hv, hv2]
    · by_cases hv : k = v
      · subst hv
        have hvf : ¬ k = f := hk
        simp [dictInsert, lookup, hvf]
      · simp [dictInsert, lookup, hk, hv, ih]

theorem hasKey_dictInsert (a : List (V × D)) (f : V) (x : D) (v : V) :
    hasKey (dictInsert a f x) v = (decide (v = f) || hasKey a v) := by
  by_cases h : v = f <;> simp [hasKey, lookup_dictInsert, h]

theorem hasKey_nil (v : V) : hasKey ([] : List (V × D)) v = false := rfl

theorem mem_keys_iff_hasKey (a : List (V × D)) (v : V) :
    v ∈ keys a ↔ hasKey a v = true := by
  induction a with
  | nil => simp [keys, hasKey, lookup]
  | cons p rest ih =>
    obtain ⟨k, y⟩ := p
    by_cases h : k = v
    · subst h
      simp [keys, hasKey, lookup]
    · have h2 : ¬ v = k := fun he => h he.symm
      simp [keys, hasKey, lookup, h, h2] at ih ⊢
      exact ih

theorem keys_dictInsert_of_not_hasKey (a : List (V × D)) (f : V) (x : D)
    (h : hasKey a f = false) : keys (dictInsert a f x) = keys a ++ [f] := by
  induction a with
  | nil => simp [dictInsert, keys]
  | cons p rest ih =>
    obtain ⟨k, y⟩ := p
    have hk : ¬ k = f := by
      intro he
      subst he
      simp [hasKey, lookup] at h
    have hr : hasKey rest f = false := by
      simpa [hasKey, lookup, hk] using h
    have hstep := ih hr
    simp only [keys, List.map] at hstep ⊢
    simp [dictInsert, hk, hstep]

theorem length_dictInsert_of_not_hasKey (a : List (V × D)) (f : V) (x : D)
    (h : hasKey a f = false) : (dictInsert a f x).length = a.length + 1 := by
  have hk := keys_dictInsert_of_not_hasKey a f x h
  have h1 : (keys (dictInsert a f x)).length = (keys a ++ [f]).length := by rw [hk]
  simpa [keys] using h1

theorem mem_of_lookup_eq_some {a : List (V × D)} {v : V} {d : D}
    (h : lookup a v = some d) : (v, d) ∈ a := by
  induction a with
  | nil => simp [lookup] at h
  | cons p rest ih =>
    obtain ⟨k, y⟩ := p
    by_cases hk : k = v
    · subst hk
      simp [lookup] at h
      simp [h]
    · simp [lookup, hk] at h
      simp [ih h]

theorem lookup_eq_some_of_mem {a : List (V × D)} {v : V} {d : D}
    (hnd : (keys a).Nodup) (h : (v, d) ∈ a) : lookup a v = some d := by
  induction a with
  | nil => simp at h
  | cons p rest ih =>
    obtain ⟨k, y⟩ := p
    have hnd2 : (k :: keys rest).Nodup := hnd
    have hcons := List.nodup_cons.mp hnd2
    rcases List.mem_cons.mp h with he | hm
    · have h1 : v = k ∧ d = y := by simpa using he
      obtain ⟨rfl, rfl⟩ := h1
      simp [lookup]
    · have hk : ¬ k = v := by
        intro he2
        have hvmem : v ∈ List.map Prod.fst rest := List.mem_map.mpr ⟨(v, d), hm, rfl⟩
        exact (he2 ▸ hcons.1) hvmem
      simp [lookup, hk]
      exact ih hcons.2 hm

/-! Facts about the unassigned list. -/

theorem unassigned_nil (csp : CSP V D) : unassigned csp [] = csp.vars := by
  simp [unassigned, hasKey, lookup]

theorem length_unassigned_le (csp : CSP V D) (a : List (V × D)) :
    (unassigned csp a).length ≤ csp.vars.length :=
  List.length_filter_le _ _

theorem unassigned_dictInsert (csp : CSP V D) (a : List (V × D)) (f : V) (x : D) :
    unassigned csp (dictInsert a f x) =
      (unassigned csp a).filter (fun v => ! decide (v = f)) := by
  unfold unassigned
  rw [List.filter_filter]
  apply List.filter_congr
  intro v _
  rw [hasKey_dictInsert, Bool.not_or]

theorem length_unassigned_dictInsert_lt (csp : CSP V D) (a : List (V × D))
    (f : V) (x : D) (hf : hasKey a f = false) (hmem : f ∈ csp.vars) :
    (unassigned csp (dictInsert a f x)).length < (unassigned csp a).length := by
  rw [unassigned_dictInsert]
  apply List.length_filter_lt_length_iff_exists.mpr
  refine ⟨f, ?_, by simp⟩
  simp [unassigned, List.mem_filter, hmem, hf]

theorem head_unassigned {csp : CSP V D} {a : List (V × D)} {first : V}
    {rest : List V} (h : unassigned csp a = first :: rest) :
    first ∈ csp.vars ∧ hasKey a first = false := by
  have hmem : first ∈ unassigned csp a := by
    rw [h]
    simp
  have := List.mem_filter.mp hmem
  simpa using this

theorem subset_of_hasKey_sub {csp : CSP V D} {a : List (V × D)}
    (hsub : ∀ v, hasKey a v = true → v ∈ csp.vars) : keys a ⊆ csp.vars := by
  intro v hv
  exact hsub v ((mem_keys_iff_hasKey a v).mp hv)

omit [DecidableEq V] in
theorem length_keys (a : List (V × D)) : (keys a).length = a.length := by
  simp [keys]

/-- With distinct declared variables and an assignment whose distinct keys
all are declared variables, an assignment of full length assigns every
declared variable. -/
theorem hasKey_of_complete {csp : CSP V D} {a : List (V × D)}
    (hka : (keys a).Nodup)
    (hsub : ∀ v, hasKey a v = true → v ∈ csp.vars)
    (hlen : a.length = csp.vars.length) :
    ∀ v ∈ csp.vars, hasKey a v = true := by
  have hsp : List.Subperm (keys a) csp.vars :=
    List.subperm_of_subset hka (subset_of_hasKey_sub hsub)
  have hperm : List.Perm (keys a) csp.vars :=
    hsp.perm_of_length_le (by rw [length_keys, hlen])
  intro v hvmem
  exact (mem_keys_iff_hasKey a v).mp (hperm.mem_iff.mpr hvmem)

/-- With distinct declared variables, an incomplete well-formed assignment
always leaves the unassigned list non-empty. -/
theorem unassigned_ne_nil {csp : CSP V D} {a : List (V × D)}
    (hv : csp.vars.Nodup) (hka : (keys a).Nodup)
    (hsub : ∀ v, hasKey a v = true → v ∈ csp.vars)
    (hne : ¬ a.length = csp.vars.length) :
    ¬ unassigned csp a = [] := by
  intro hnil
  have hall : ∀ v ∈ csp.vars, hasKey a v = true := by
    intro v hvmem
    have := List.filter_eq_nil_iff.mp hnil v hvmem
    simpa using this
  have hsp1 : List.Subperm (keys a) csp.vars :=
    List.subperm_of_subset hka (subset_of_hasKey_sub hsub)
  have hsp2 : List.Subperm csp.vars (keys a) := by
    apply List.subperm_of_subset hv
    intro v hvmem
    exact (mem_keys_iff_hasKey a v).mpr (hall v hvmem)
  have h1 := hsp1.length_le
  have h2 := hsp2.length_le
  rw [length_keys] at h1 h2
  exact hne (Nat.le_antisymm h1 h2)

/-! Facts about the value loop. -/

theorem btLoop_ok_some {csp : CSP V D}
    {search : List (V × D) → Except String (Option (List (V × D)))}
    {first : V} {values : List D} {a r : List (V × D)}
    (h : btLoop csp search first values a = .ok (some r)) :
    ∃ value ∈ values, consistent csp first (dictInsert a first value) = true ∧
      search (dictInsert a first value) = .ok (some r) := by
  induction values with
  | nil => simp [btLoop] at h
  | cons value rest ih =>
    simp only [btLoop] at h
    by_cases hc : consistent csp first (dictInsert a first value) = true
    · rw [if_pos hc] at h
      rcases hs : search (dictInsert a first value) with e | o
      · rw [hs] at h
        simp at h
      · rw [hs] at h
        rcases o with _ | r2
        · obtain ⟨v2, hv2, hc2, hs2⟩ := ih h
          exact ⟨v2, List.mem_cons_of_mem _ hv2, hc2, hs2⟩
        · simp at h
          exact ⟨value, List.mem_cons_self _ _, hc, by rw [hs, h]⟩
    · rw [if_neg hc] at h
      obtain ⟨v2, hv2, hc2, hs2⟩ := ih h
      exact ⟨v2, List.mem_cons_of_mem _ hv2, hc2, hs2⟩

theorem btLoop_no_error {csp : CSP V D}
    {search : List (V × D) → Except String (Option (List (V × D)))}
    {first : V} {values : List D} {a : List (V × D)}
    (hno : ∀ value ∈ values, consistent csp first (dictInsert a first value) = true →
      ∃ o, search (dictInsert a first value) = .ok o) :
    ∃ o, btLoop csp search first values a = .ok o := by
  induction values with
  | nil => exact ⟨none, rfl⟩
  | cons value rest ih =>
    simp only [btLoop]
    by_cases hc : consistent csp first (dictInsert a first value) = true
    · rw [if_pos hc]
      obtain ⟨o, ho⟩ := hno value (List.mem_cons_self _ _) hc
      rw [ho]
      rcases o with _ | r
      · exact ih (fun v hv => hno v (List.mem_cons_of_mem _ hv))
      · exact ⟨some r, rfl⟩
    · rw [if_neg hc]
      exact ih (fun v hv => hno v (List.mem_cons_of_mem _ hv))

theorem btLoop_finds_some {csp : CSP V D}
    {search : List (V × D) → Except String (Option (List (V × D)))}
    {first : V} {values : List D} {a : List (V × D)}
    (hno : ∀ value ∈ values, consistent csp first (dictInsert a first value) = true →
      ∃ o, search (dictInsert a first value) = .ok o)
    (hw : ∃ value ∈ values, consistent csp first (dictInsert a first value) = true ∧
      ∃ r, search (dictInsert a first value) = .ok (some r)) :
    ∃ r, btLoop csp search first values a = .ok (some r) := by
  induction values with
  | nil => simp at hw
  | cons value rest ih =>
    simp only [btLoop]
    by_cases hc : consistent csp first (dictInsert a first value) = true
    · rw [if_pos hc]
      obtain ⟨o, ho⟩ := hno value (List.mem_cons_self _ _) hc
      rw [ho]
      rcases o with _ | r
      · apply ih (fun v hv => hno v (List.mem_cons_of_mem _ hv))
        obtain ⟨v2, hv2, hc2, r2, hr2⟩ := hw
        rcases List.mem_cons.mp hv2 with rfl | hv2m
        · rw [ho] at hr2
          simp at hr2
        · exact ⟨v2, hv2m, hc2, r2, hr2⟩
      · exact ⟨r, rfl⟩
    · rw [if_neg hc]
      apply ih (fun v hv => hno v (List.mem_cons_of_mem _ hv))
      obtain ⟨v2, hv2, hc2, r2, hr2⟩ := hw
      rcases List.mem_cons.mp hv2 with rfl | hv2m
      · exact absurd hc2 hc
      · exact ⟨v2, hv2m, hc2, r2, hr2⟩

theorem btLoop_spec_correspondence {csp : CSP V D}
    {search : List (V × D) → Except String (Option (List (V × D)))}
    {recur : List (V × D) → Option (List (V × D))}
    {first : V} {values : List D} {a : List (V × D)}
    (h : ∀ value ∈ values, search (dictInsert a first value) =
      .ok (recur (dictInsert a first value))) :
    btLoop csp search first values a =
      .ok (specTryValues csp recur first values a) := by
  induction values with
  | nil => rfl
  | cons value rest ih =>
    simp only [btLoop, specTryValues]
    by_cases hc : consistent csp first (dictInsert a first value) = true
    · rw [if_pos hc, if_pos hc, h value (List.mem_cons_self _ _)]
      rcases recur (dictInsert a first value) with _ | r
      · exact ih (fun v hv => h v (List.mem_cons_of_mem _ hv))
      · rfl
    · rw [if_neg hc, if_neg hc]
      exact ih (fun v hv => h v (List.mem_cons_of_mem _ hv))

/-! Facts about the consistency check. -/

omit [DecidableEq V] in
theorem allSatisfied_eq_true_iff (cs : List (Constraint V D)) (a : List (V × D)) :
    allSatisfied cs a = true ↔ ∀ c ∈ cs, c.satisfied a = true := by
  induction cs with
  | nil => simp [allSatisfied]
  | cons c rest ih =>
    by_cases hc : c.satisfied a = true
    · simp [allSatisfied, hc, ih]
    · simp [allSatisfied, hc]

omit [DecidableEq V] in
theorem consistent_eq_true_iff (csp : CSP V D) (v : V) (a : List (V × D)) :
    consistent csp v a = true ↔ ∀ c ∈ csp.constraints v, c.satisfied a = true :=
  allSatisfied_eq_true_iff _ _

/-! Invariants of the search, proved by induction on the fuel. -/

/-- Extending a well-formed partial assignment with a binding for a fresh
problem variable preserves well-formedness. -/
theorem dictInsert_invariants {csp : CSP V D} {a : List (V × D)} {first : V}
    (value : D) (hka : (keys a).Nodup)
    (hsub : ∀ v, hasKey a v = true → v ∈ csp.vars)
    (hfv : first ∈ csp.vars) (hfk : hasKey a first = false) :
    (keys (dictInsert a first value)).Nodup ∧
      (∀ v, hasKey (dictInsert a first value) v = true → v ∈ csp.vars) := by
  constructor
  · rw [keys_dictInsert_of_not_hasKey a first value hfk]
    refine List.Nodup.append hka (List.nodup_singleton first) ?_
    intro v hv1 hv2
    have hveq : v = first := by simpa using hv2
    subst hveq
    rw [mem_keys_iff_hasKey, hfk] at hv1
    exact Bool.false_ne_true hv1
  · intro v hvk
    rw [hasKey_dictInsert] at hvk
    rcases Bool.or_eq_true_iff.mp hvk with he | hk
    · have : v = first := of_decide_eq_true he
      subst this
      exact hfv
    · exact hsub v hk

/-- With distinct declared variables, a well-formed call never raises:
the search always returns a result or absence. -/
theorem btFuel_ok {csp : CSP V D} (hv : csp.vars.Nodup) :
    ∀ fuel (a : List (V × D)), (unassigned csp a).length < fuel →
      (keys a).Nodup → (∀ v, hasKey a v = true → v ∈ csp.vars) →
      ∃ o, btFuel csp fuel a = .ok o := by
  intro fuel
  induction fuel with
  | zero =>
    intro a hfuel
    exact absurd hfuel (Nat.not_lt_zero _)
  | succ fuel ih =>
    intro a hfuel hka hsub
    by_cases hlen : a.length = csp.vars.length
    · exact ⟨some a, by simp [btFuel, hlen]⟩
    · rcases hu : unassigned csp a with _ | ⟨first, rest⟩
      · exact absurd hu (unassigned_ne_nil hv hka hsub hlen)
      · obtain ⟨hfv, hfk⟩ := head_unassigned hu
        have hloop : ∃ o, btLoop csp (btFuel csp fuel) first (csp.domains first) a = .ok o := by
          apply btLoop_no_error
          intro value hval hc
          obtain ⟨hka2, hsub2⟩ := dictInsert_invariants value hka hsub hfv hfk
          apply ih _ _ hka2 hsub2
          have hlt := length_unassigned_dictInsert_lt csp a first value hfk hfv
          omega
        obtain ⟨o, ho⟩ := hloop
        refine ⟨o, ?_⟩
        simp only [btFuel]
        rw [if_neg hlen, hu]
        exact ho

/-- Structural soundness of the search: a returned assignment has full
length, extends the starting assignment without touching its bindings,
keeps its keys distinct and among the declared variables, and draws every
new value from the domain of its variable. -/
theorem btFuel_sound_basic {csp : CSP V D} :
    ∀ fuel (a r : List (V × D)), btFuel csp fuel a = .ok (some r) →
      (keys a).Nodup → (∀ v, hasKey a v = true → v ∈ csp.vars) →
      r.length = csp.vars.length ∧
        (∀ v d, lookup a v = some d → lookup r v = some d) ∧
        (∀ v, hasKey r v = true → v ∈ csp.vars) ∧
        (keys r).Nodup ∧
        (∀ v d, lookup r v = some d → hasKey a v = true ∨ d ∈ csp.domains v) := by
  intro fuel
  induction fuel with
  | zero =>
    intro a r h
    simp [btFuel] at h
  | succ fuel ih =>
    intro a r h hka hsub
    by_cases hlen : a.length = csp.vars.length
    · have hra : r = a := by
        simp [btFuel, hlen] at h
        exact h.symm
      subst hra
      refine ⟨hlen, fun v d hd => hd, hsub, hka, fun v d hd => Or.inl ?_⟩
      simp [hasKey, hd]
    · simp only [btFuel] at h
      rw [if_neg hlen] at h
      rcases hu : unassigned csp a with _ | ⟨first, rest⟩
      · rw [hu] at h
        simp at h
      · rw [hu] at h
        obtain ⟨hfv, hfk⟩ := head_unassigned hu
        obtain ⟨value, hval, hc, hs⟩ := btLoop_ok_some h
        obtain ⟨hka2, hsub2⟩ := dictInsert_invariants value hka hsub hfv hfk
        obtain ⟨ihlen, ihext, ihkeys, ihnd, ihvals⟩ := ih _ r hs hka2 hsub2
        refine ⟨ihlen, ?_, ihkeys, ihnd, ?_⟩
        · intro v d hd
          have hvf : ¬ v = first := by
            intro he
            subst he
            simp [hasKey, hd] at hfk
          apply ihext
          rw [lookup_dictInsert, if_neg hvf]
          exact hd
        · intro v d hd
          rcases ihvals v d hd with hk | hdom
          · rw [hasKey_dictInsert] at hk
            rcases Bool.or_eq_true_iff.mp hk with he | hk2
            · have hvfirst : v = first := of_decide_eq_true he
              subst hvfirst
              have hlookloc : lookup (dictInsert a v value) v = some value := by
                rw [lookup_dictInsert, if_pos rfl]
              have hlookr := ihext v value hlookloc
              rw [hd] at hlookr
              have hdv : d = value := by
                injection hlookr
              subst hdv
              exact Or.inr hval
            · exact Or.inl hk2
          · exact Or.inr hdom

/-- Soundness of the incremental consistency checks: under the invariants
the class maintains (every constraint is registered at each of its own
variables, all of them declared) and the contract of the spec that a
satisfied predicate examines only the bindings of the variables of its
constraint, the returned assignment satisfies every constraint some of
whose variables were still unassigned at the start of the call. -/
theorem btFuel_sound_sat {csp : CSP V D}
    (hreg : ∀ w c, c ∈ csp.constraints w → w ∈ c.vars ∧
      ∀ x ∈ c.vars, x ∈ csp.vars ∧ c ∈ csp.constraints x)
    (hctr : ∀ w c, c ∈ csp.constraints w → ∀ b1 b2 : List (V × D),
      (∀ x ∈ c.vars, lookup b1 x = lookup b2 x) →
      c.satisfied b1 = c.satisfied b2) :
    ∀ fuel (a r : List (V × D)), btFuel csp fuel a = .ok (some r) →
      (keys a).Nodup → (∀ v, hasKey a v = true → v ∈ csp.vars) →
      ∀ w c, c ∈ csp.constraints w →
        (∃ x ∈ c.vars, hasKey a x = false) → c.satisfied r = true := by
  intro fuel
  induction fuel with
  | zero =>
    intro a r h
    simp [btFuel] at h
  | succ fuel ih =>
    intro a r h hka hsub w c hc hx
    obtain ⟨x, hxc, hxk⟩ := hx
    by_cases hlen : a.length = csp.vars.length
    · have hra : r = a := by
        simp [btFuel, hlen] at h
        exact h.symm
      subst hra
      have hxvars : x ∈ csp.vars := ((hreg w c hc).2 x hxc).1
      have := hasKey_of_complete hka hsub hlen x hxvars
      rw [hxk] at this
      exact absurd this Bool.false_ne_true
    · simp only [btFuel] at h
      rw [if_neg hlen] at h
      rcases hu : unassigned csp a with _ | ⟨first, rest⟩
      · rw [hu] at h
        simp at h
      · rw [hu] at h
        obtain ⟨hfv, hfk⟩ := head_unassigned hu
        obtain ⟨value, hval, hcons, hs⟩ := btLoop_ok_some h
        obtain ⟨hka2, hsub2⟩ := dictInsert_invariants value hka hsub hfv hfk
        by_cases hxl : hasKey (dictInsert a first value) x = true
        · have hxfirst : x = first := by
            rw [hasKey_dictInsert] at hxl
            rcases Bool.or_eq_true_iff.mp hxl with he | hk2
            · exact of_decide_eq_true he
            · rw [hxk] at hk2
              exact absurd hk2 Bool.false_ne_true
          subst hxfirst
          have hcx : c ∈ csp.constraints x := ((hreg w c hc).2 x hxc).2
          have hsatloc : c.satisfied (dictInsert a x value) = true :=
            (consistent_eq_true_iff csp x (dictInsert a x value)).mp hcons c hcx
          by_cases hall : ∀ y ∈ c.vars, hasKey (dictInsert a x value) y = true
          · have hext := (btFuel_sound_basic fuel _ r hs hka2 hsub2).2.1
            have hagree : ∀ y ∈ c.vars,
                lookup (dictInsert a x value) y = lookup r y := by
              intro y hy
              rcases hl : lookup (dictInsert a x value) y with _ | e
              · have := hall y hy
                simp [hasKey, hl] at this
              · exact (hext y e hl).symm
            have := hctr w c hc (dictInsert a x value) r hagree
            rw [← this]
            exact hsatloc
          · push_neg at hall
            obtain ⟨y, hy, hykey⟩ := hall
            refine ih _ r hs hka2 hsub2 w c hc ⟨y, hy, ?_⟩
            exact Bool.eq_false_iff.mpr hykey
        · refine ih _ r hs hka2 hsub2 w c hc ⟨x, hxc, ?_⟩
          exact Bool.eq_false_iff.mpr hxl

/-- Completeness of the search: under the contract of the spec that
removing bindings from an assignment can only make a constraint vacuously
satisfied, a complete satisfying assignment drawing its values from the
domains guides the search to some successful result. -/
theorem btFuel_complete {csp : CSP V D} (S : List (V × D)) (hv : csp.vars.Nodup)
    (hmono : ∀ w c, c ∈ csp.constraints w → ∀ b1 b2 : List (V × D),
      (∀ x d, lookup b2 x = some d → lookup b1 x = some d) →
      c.satisfied b1 = true → c.satisfied b2 = true)
    (hS : ∀ w c, c ∈ csp.constraints w → c.satisfied S = true)
    (hSdom : ∀ v d, lookup S v = some d → d ∈ csp.domains v)
    (hScomp : ∀ v ∈ csp.vars, hasKey S v = true) :
    ∀ fuel (a : List (V × D)), (unassigned csp a).length < fuel →
      (keys a).Nodup → (∀ v, hasKey a v = true → v ∈ csp.vars) →
      (∀ v d, lookup a v = some d → lookup S v = some d) →
      ∃ r, btFuel csp fuel a = .ok (some r) := by
  intro fuel
  induction fuel with
  | zero =>
    intro a hfuel
    exact absurd hfuel (Nat.not_lt_zero _)
  | succ fuel ih =>
    intro a hfuel hka hsub haS
    by_cases hlen : a.length = csp.vars.length
    · exact ⟨a, by simp [btFuel, hlen]⟩
    · rcases hu : unassigned csp a with _ | ⟨first, rest⟩
      · exact absurd hu (unassigned_ne_nil hv hka hsub hlen)
      · obtain ⟨hfv, hfk⟩ := head_unassigned hu
        have hkey := hScomp first hfv
        rcases hlookS : lookup S first with _ | d
        · rw [hasKey, hlookS] at hkey
          simp at hkey
        · have hdmem : d ∈ csp.domains first := hSdom first d hlookS
          have hlocS : ∀ v e, lookup (dictInsert a first d) v = some e →
              lookup S v = some e := by
            intro v e hl
            rw [lookup_dictInsert] at hl
            by_cases hvf : v = first
            · rw [if_pos hvf] at hl
              subst hvf
              rw [hlookS]
              exact hl ▸ rfl
            · rw [if_neg hvf] at hl
              exact haS v e hl
          have hcons : consistent csp first (dictInsert a first d) = true := by
            rw [consistent_eq_true_iff]
            intro c hc
            exact hmono first c hc S (dictInsert a first d)
              (fun x e he => hlocS x e he) (hS first c hc)
          obtain ⟨hka2, hsub2⟩ := dictInsert_invariants d hka hsub hfv hfk
          have hfuel2 : (unassigned csp (dictInsert a first d)).length < fuel := by
            have hlt := length_unassigned_dictInsert_lt csp a first d hfk hfv
            omega
          obtain ⟨r, hr⟩ := ih (dictInsert a first d) hfuel2 hka2 hsub2 hlocS
          have hloop : ∃ r2, btLoop csp (btFuel csp fuel) first (csp.domains first) a =
              .ok (some r2) := by
            apply btLoop_finds_some
            · intro value hval hc
              obtain ⟨hka3, hsub3⟩ := dictInsert_invariants value hka hsub hfv hfk
              apply btFuel_ok hv
              · have hlt := length_unassigned_dictInsert_lt csp a first value hfk hfv
                omega
              · exact hka3
              · exact hsub3
            · exact ⟨d, hdmem, hcons, r, hr⟩
          obtain ⟨r2, hr2⟩ := hloop
          refine ⟨r2, ?_⟩
          simp only [btFuel]
          rw [if_neg hlen, hu]
          exact hr2

/-- The first element of the filtered list is the first element
satisfying the predicate. -/
theorem find?_of_filter_cons {α : Type} {l : List α} {p : α → Bool} {x : α}
    {xs : List α} (h : l.filter p = x :: xs) : l.find? p = some x := by
  induction l with
  | nil => simp at h
  | cons y t ih =>
    by_cases hp : p y = true
    · rw [List.filter_cons_of_pos hp] at h
      rw [List.find?_cons_of_pos _ hp]
      injection h with h1 _
      rw [h1]
    · rw [List.filter_cons_of_neg (by simpa using hp)] at h
      rw [List.find?_cons_of_neg _ hp]
      exact ih h

/-- The implementation refines the search described by the spec: on any
well-formed assignment they produce the same outcome, the implementation
wrapping it in the non-raising case of its exception monad. -/
theorem btFuel_eq_specSearchFuel {csp : CSP V D} (hv : csp.vars.Nodup) :
    ∀ fuel (a : List (V × D)), (unassigned csp a).length < fuel →
      (keys a).Nodup → (∀ v, hasKey a v = true → v ∈ csp.vars) →
      btFuel csp fuel a = .ok (specSearchFuel csp fuel a) := by
  intro fuel
  induction fuel with
  | zero =>
    intro a hfuel
    exact absurd hfuel (Nat.not_lt_zero _)
  | succ fuel ih =>
    intro a hfuel hka hsub
    by_cases hlen : a.length = csp.vars.length
    · simp [btFuel, specSearchFuel, hlen]
    · rcases hu : unassigned csp a with _ | ⟨first, rest⟩
      · exact absurd hu (unassigned_ne_nil hv hka hsub hlen)
      · obtain ⟨hfv, hfk⟩ := head_unassigned hu
        have hsel : selectVariable csp a = some first :=
          find?_of_filter_cons hu
        have hstep : btLoop csp (btFuel csp fuel) first (csp.domains first) a =
            .ok (specTryValues csp (specSearchFuel csp fuel) first (csp.domains first) a) := by
          apply btLoop_spec_correspondence
          intro value hval
          obtain ⟨hka2, hsub2⟩ := dictInsert_invariants value hka hsub hfv hfk
          apply ih _ _ hka2 hsub2
          have hlt := length_unassigned_dictInsert_lt csp a first value hfk hfv
          omega
        simp only [btFuel, specSearchFuel]
        rw [if_neg hlen, if_neg hlen, hu, hsel]
        exact hstep

/-! Facts about the heap model. -/

omit [DecidableEq V] in
theorem storePreserves_refl (s : Store V D) : StorePreserves s s :=
  ⟨Nat.le_refl _, fun _ _ => rfl⟩

omit [DecidableEq V] in
theorem storePreserves_trans {s1 s2 s3 : Store V D}
    (h12 : StorePreserves s1 s2) (h23 : StorePreserves s2 s3) :
    StorePreserves s1 s3 := by
  refine ⟨Nat.le_trans h12.1 h23.1, fun i hi => ?_⟩
  rw [h23.2 i (Nat.lt_of_lt_of_le hi h12.1), h12.2 i hi]

omit [DecidableEq V] in
/-- Allocating a fresh object at the end of the store and mutating it in
place leaves every existing object untouched. -/
theorem storePreserves_alloc (s : Store V D) (x y : List (V × D)) :
    StorePreserves s ((s ++ [x]).set s.length y) := by
  constructor
  · simp
  · intro i hi
    rw [List.getElem?_set_ne (by omega)]
    rw [List.getElem?_append, if_pos hi]

omit [DecidableEq V] in
theorem storeGet_eq_of_preserves {s s2 : Store V D} {ref : Nat}
    (h : StorePreserves s s2) (href : ref < s.length) :
    storeGet s2 ref = storeGet s ref := by
  simp only [storeGet, List.getD, List.get?_eq_getElem?]
  rw [h.2 ref href]

omit [DecidableEq V] in
theorem storeGet_alloc_new (s : Store V D) (x y : List (V × D)) :
    storeGet ((s ++ [x]).set s.length y) s.length = y := by
  simp only [storeGet, List.getD, List.get?_eq_getElem?]
  rw [List.getElem?_set_self (by simp)]
  rfl

/-- The value loop over the store never touches pre-existing objects as
long as the recursive search does not. -/
theorem btHeapLoop_frame {csp : CSP V D}
    {recur : Nat → Store V D → Except String (Option (List (V × D))) × Store V D}
    (hrec : ∀ ref store, StorePreserves store (recur ref store).2)
    (first : V) :
    ∀ (values : List D) (ref : Nat) (store : Store V D),
      StorePreserves store (btHeapLoop csp recur first values ref store).2 := by
  intro values
  induction values with
  | nil => intro ref store; exact storePreserves_refl store
  | cons value rest ih =>
    intro ref store
    simp only [btHeapLoop]
    set assignment := storeGet store ref with ha
    set store1 := (store ++ [assignment]).set store.length
      (dictInsert assignment first value) with hs1
    have hp1 : StorePreserves store store1 := storePreserves_alloc _ _ _
    by_cases hc : consistent csp first (storeGet store1 store.length) = true
    · rw [if_pos hc]
      have hp2 : StorePreserves store1 (recur store.length store1).2 := hrec _ _
      rcases hres : recur store.length store1 with ⟨res, store2⟩
      have hp12 : StorePreserves store store2 := by
        apply storePreserves_trans hp1
        rw [hres] at hp2
        exact hp2
      rcases res with e | o
      · exact hp12
      · rcases o with _ | r
        · exact storePreserves_trans hp12 (ih ref store2)
        · exact hp12
    · rw [if_neg hc]
      exact storePreserves_trans hp1 (ih ref store1)

/-- The search over the store never touches pre-existing objects; in
particular it never mutates the dict object the caller passed in. -/
theorem btHeap_frame {csp : CSP V D} :
    ∀ (fuel ref : Nat) (store : Store V D),
      StorePreserves store (btHeap csp fuel ref store).2 := by
  intro fuel
  induction fuel with
  | zero => intro ref store; exact storePreserves_refl store
  | succ fuel ih =>
    intro ref store
    simp only [btHeap]
    by_cases hlen : (storeGet store ref).length = csp.vars.length
    · rw [if_pos hlen]
      exact storePreserves_refl store
    · rw [if_neg hlen]
      rcases hu : unassigned csp (storeGet store ref) with _ | ⟨first, rest2⟩
      · exact storePreserves_refl store
      · exact btHeapLoop_frame (fun r s => ih r s) first (csp.domains first) ref store

/-- The result of the value loop over the store coincides with the result
of the pure value loop on the dict object the address refers to. -/
theorem btHeapLoop_correspondence {csp : CSP V D}
    {recur : Nat → Store V D → Except String (Option (List (V × D))) × Store V D}
    {search : List (V × D) → Except String (Option (List (V × D)))}
    (hrecFrame : ∀ ref store, StorePreserves store (recur ref store).2)
    (hrecCorr : ∀ ref store, ref < store.length →
      (recur ref store).1 = search (storeGet store ref))
    (first : V) :
    ∀ (values : List D) (ref : Nat) (store : Store V D), ref < store.length →
      (btHeapLoop csp recur first values ref store).1 =
        btLoop csp search first values (storeGet store ref) := by
  intro values
  induction values with
  | nil => intro ref store _; rfl
  | cons value rest ih =>
    intro ref store href
    simp only [btHeapLoop, btLoop]
    set assignment := storeGet store ref with ha
    set store1 := (store ++ [assignment]).set store.length
      (dictInsert assignment first value) with hs1
    have hnew : storeGet store1 store.length = dictInsert assignment first value :=
      storeGet_alloc_new _ _ _
    have hp1 : StorePreserves store store1 := storePreserves_alloc _ _ _
    have hlen1 : store.length < store1.length := by
      simp [hs1]
    rw [hnew]
    by_cases hc : consistent csp first (dictInsert assignment first value) = true
    · rw [if_pos hc, if_pos hc]
      have hcorr := hrecCorr store.length store1 hlen1
      rw [hnew] at hcorr
      rcases hres : recur store.length store1 with ⟨res, store2⟩
      rw [hres] at hcorr
      simp only at hcorr
      rw [← hcorr]
      have hp2 : StorePreserves store store2 := by
        have := hrecFrame store.length store1
        rw [hres] at this
        exact storePreserves_trans hp1 this
      rcases res with e | o
      · rfl
      · rcases o with _ | r
        · have hsame : storeGet store2 ref = storeGet store ref :=
            storeGet_eq_of_preserves hp2 href
          have := ih ref store2 (Nat.lt_of_lt_of_le href hp2.1)
          rw [hsame] at this
          exact this
        · rfl
    · rw [if_neg hc, if_neg hc]
      have hsame : storeGet store1 ref = storeGet store ref :=
        storeGet_eq_of_preserves hp1 href
      have := ih ref store1 (Nat.lt_of_lt_of_le href hp1.1)
      rw [hsame] at this
      exact this

/-- The result of the search over the store coincides with the result of
the pure search on the dict object the address refers to. -/
theorem btHeap_correspondence {csp : CSP V D} :
    ∀ (fuel ref : Nat) (store : Store V D), ref < store.length →
      (btHeap csp fuel ref store).1 = btFuel csp fuel (storeGet store ref) := by
  intro fuel
  induction fuel with
  | zero => intro ref store _; rfl
  | succ fuel ih =>
    intro ref store href
    simp only [btHeap, btFuel]
    by_cases hlen : (storeGet store ref).length = csp.vars.length
    · rw [if_pos hlen, if_pos hlen]
    · rw [if_neg hlen, if_neg hlen]
      rcases hu : unassigned csp (storeGet store ref) with _ | ⟨first, rest2⟩
      · rfl
      · exact btHeapLoop_correspondence (fun r s => btHeap_frame fuel r s)
          (fun r s hr => ih r s hr) first (csp.domains first) ref store href

/-! Small helpers for the empty assignment and the example problems. -/

omit [DecidableEq V] in
theorem keys_nil_nodup : (keys ([] : List (V × D))).Nodup := by
  simp [keys]

theorem hasKey_nil_sub (csp : CSP V D) :
    ∀ v, hasKey ([] : List (V × D)) v = true → v ∈ csp.vars := by
  intro v hv2
  rw [hasKey_nil] at hv2
  exact absurd hv2 Bool.false_ne_true

theorem cspNeq_constraints_cases {w : Nat} {c : Constraint Nat Nat}
    (hc : c ∈ cspNeq.constraints w) : c = neqC ∧ (w = 1 ∨ w = 2) := by
  by_cases h1 : w = 1
  · subst h1
    simp [cspNeq] at hc
    exact ⟨hc, Or.inl rfl⟩
  · by_cases h2 : w = 2
    · subst h2
      simp [cspNeq] at hc
      exact ⟨hc, Or.inr rfl⟩
    · simp [cspNeq, h1, h2] at hc

theorem cspNeq_registry_wf : ∀ w c, c ∈ cspNeq.constraints w → w ∈ c.vars ∧
    ∀ x ∈ c.vars, x ∈ cspNeq.vars ∧ c ∈ cspNeq.constraints x := by
  intro w c hc
  obtain ⟨rfl, hw⟩ := cspNeq_constraints_cases hc
  constructor
  · rcases hw with rfl | rfl <;> simp [neqC]
  · intro x hx
    have hx2 : x = 1 ∨ x = 2 := by simpa [neqC] using hx
    rcases hx2 with rfl | rfl <;> simp [cspNeq, neqC]

theorem cspNeq_restriction_contract : ∀ w c, c ∈ cspNeq.constraints w →
    ∀ b1 b2 : List (Nat × Nat),
      (∀ x ∈ c.vars, lookup b1 x = lookup b2 x) →
      c.satisfied b1 = c.satisfied b2 := by
  intro w c hc b1 b2 hagree
  obtain ⟨rfl, _⟩ := cspNeq_constraints_cases hc
  have h1 : lookup b1 1 = lookup b2 1 := hagree 1 (by simp [neqC])
  have h2 : lookup b1 2 = lookup b2 2 := hagree 2 (by simp [neqC])
  simp only [neqC]
  rw [h1, h2]

/-- C1: soundness of the returned result.  For every problem whose
registry satisfies the invariants of the class (each registered constraint
is listed exactly at its own variables, all of which are declared) and
whose constraints obey the contract of the spec that a satisfied
predicate examines only the bindings of the variables of its constraint,
a non-absent result of backtracking_search from the empty assignment
assigns every problem variable exactly once (its key set equals the
declared variable list, each key occurring once) and satisfies every
registered constraint. -/
theorem backtracking_search_sound (csp : CSP V D) (r : List (V × D))
    (hreg : ∀ w c, c ∈ csp.constraints w → w ∈ c.vars ∧
      ∀ x ∈ c.vars, x ∈ csp.vars ∧ c ∈ csp.constraints x)
    (hctr : ∀ w c, c ∈ csp.constraints w → ∀ b1 b2 : List (V × D),
      (∀ x ∈ c.vars, lookup b1 x = lookup b2 x) →
      c.satisfied b1 = c.satisfied b2)
    (h : backtracking_search csp [] = .ok (some r)) :
    (∀ v, hasKey r v = true ↔ v ∈ csp.vars) ∧ (keys r).Nodup ∧
      (∀ w c, c ∈ csp.constraints w → c.satisfied r = true) := by
  obtain ⟨hlen, hext, hkeys, hnd, hvals⟩ :=
    btFuel_sound_basic (csp.vars.length + 1) [] r h keys_nil_nodup (hasKey_nil_sub csp)
  refine ⟨?_, hnd, ?_⟩
  · intro v
    exact ⟨hkeys v, fun hvm => hasKey_of_complete hnd hkeys hlen v hvm⟩
  · intro w c hc
    exact btFuel_sound_sat hreg hctr (csp.vars.length + 1) [] r h keys_nil_nodup
      (hasKey_nil_sub csp) w c hc ⟨w, (hreg w c hc).1, hasKey_nil w⟩

/-- C1 witness: on the two-variable different-values problem the search
returns the assignment mapping 1 to 0 and 2 to 1, whose key set is the
declared variable list and which satisfies the registered constraint. -/
theorem backtracking_search_sound_witness :
    (∀ v, hasKey [(1, 0), (2, 1)] v = true ↔ v ∈ cspNeq.vars) ∧
      (keys [(1, 0), (2, 1)]).Nodup ∧
      (∀ w c, c ∈ cspNeq.constraints w → c.satisfied [(1, 0), (2, 1)] = true) :=
  backtracking_search_sound cspNeq [(1, 0), (2, 1)]
    cspNeq_registry_wf cspNeq_restriction_contract rfl

/-- C2: completeness of the search.  For every problem with distinct
declared variables whose constraints obey the stated contract that
variables absent from an assignment are vacuously satisfied (removing
bindings can only make a satisfied predicate hold), if some complete
assignment drawing its values from the domains satisfies every registered
constraint, then backtracking_search from the empty assignment returns a
non-absent result; contrapositively it reports absence only when no such
assignment exists. -/
theorem backtracking_search_complete (csp : CSP V D) (S : List (V × D))
    (hv : csp.vars.Nodup)
    (hmono : ∀ w c, c ∈ csp.constraints w → ∀ b1 b2 : List (V × D),
      (∀ x d, lookup b2 x = some d → lookup b1 x = some d) →
      c.satisfied b1 = true → c.satisfied b2 = true)
    (hS : ∀ w c, c ∈ csp.constraints w → c.satisfied S = true)
    (hSdom : ∀ v d, lookup S v = some d → d ∈ csp.domains v)
    (hScomp : ∀ v ∈ csp.vars, hasKey S v = true) :
    ∃ r, backtracking_search csp [] = .ok (some r) := by
  apply btFuel_complete S hv hmono hS hSdom hScomp (csp.vars.length + 1) []
  · rw [unassigned_nil]
    exact Nat.lt_succ_self _
  · exact keys_nil_nodup
  · exact hasKey_nil_sub csp
  · intro v d hd
    simp [lookup] at hd

/-- C2 witness: the one-variable unconstrained problem is satisfiable by
the assignment mapping 1 to 0, and the search indeed returns a result. -/
theorem backtracking_search_complete_witness :
    ∃ r, backtracking_search cspZero [] = .ok (some r) := by
  apply backtracking_search_complete cspZero [(1, 0)]
  · decide
  · intro w c hc
    simp [cspZero] at hc
  · intro w c hc
    simp [cspZero] at hc
  · intro v d hd
    by_cases h1 : (1 : Nat) = v
    · simp [lookup, h1] at hd
      simp [cspZero, ← hd]
    · simp [lookup, h1] at hd
  · decide

/-- C3: branch order.  On any well-formed assignment (distinct keys, all
declared) of a problem with distinct declared variables, the
implementation returns, without raising, exactly the result of the search
described by the spec: select the first declared-order unassigned
variable, try its domain values in declared order on trial assignments of
the current assignment plus one binding, recurse only on consistent
trials, and propagate the first complete assignment found, exploring no
further values. -/
theorem backtracking_search_branch_order (csp : CSP V D) (a : List (V × D))
    (hv : csp.vars.Nodup) (hka : (keys a).Nodup)
    (hsub : ∀ v, hasKey a v = true → v ∈ csp.vars) :
    backtracking_search csp a = .ok (specSearch csp a) := by
  apply btFuel_eq_specSearchFuel hv (csp.vars.length + 1) a _ hka hsub
  exact Nat.lt_succ_of_le (length_unassigned_le csp a)

/-- C3 witness: on the two-variable different-values problem started from
the empty assignment the implementation and the search of the spec agree. -/
theorem backtracking_search_branch_order_witness :
    backtracking_search cspNeq [] = .ok (specSearch cspNeq []) :=
  backtracking_search_branch_order cspNeq [] (by decide) keys_nil_nodup
    (hasKey_nil_sub cspNeq)

/-- The loop of CSP.add_constraint on a variable list containing an
undeclared variable: it raises LookupError, but the registry is not
restored; every registry entry is extended by one copy of the constraint
for each occurrence of its variable in the prefix of declared variables
preceding the first undeclared one. -/
theorem addConstraintGo_partial (c : Constraint V D) :
    ∀ (vs : List V) (csp : CSP V D), (∃ v ∈ vs, v ∉ csp.vars) →
      (addConstraintGo c vs csp).1 = some "LookupError: Variable in constraint not in CSP" ∧
        ∀ w, (addConstraintGo c vs csp).2.constraints w =
          csp.constraints w ++
            List.replicate ((vs.takeWhile (fun v => decide (v ∈ csp.vars))).count w) c := by
  intro vs
  induction vs with
  | nil =>
    intro csp h
    simp at h
  | cons v rest ih =>
    intro csp h
    by_cases hv : v ∈ csp.vars
    · obtain ⟨u, hu, hun⟩ := h
      have hurest : u ∈ rest := by
        rcases List.mem_cons.mp hu with rfl | hm
        · exact absurd hv hun
        · exact hm
      have hstep := ih
        { csp with constraints := fun w =>
            if w = v then csp.constraints v ++ [c] else csp.constraints w }
        ⟨u, hurest, hun⟩
      have hgo : addConstraintGo c (v :: rest) csp = addConstraintGo c rest
          { csp with constraints := fun w =>
              if w = v then csp.constraints v ++ [c] else csp.constraints w } := by
        simp only [addConstraintGo]
        rw [if_pos hv]
      refine ⟨by rw [hgo]; exact hstep.1, ?_⟩
      intro w
      rw [hgo, hstep.2 w]
      dsimp only
      have htwc : List.takeWhile (fun x => decide (x ∈ csp.vars)) (v :: rest) =
          v :: List.takeWhile (fun x => decide (x ∈ csp.vars)) rest := by
        rw [List.takeWhile_cons, if_pos (by simpa using hv)]
      rw [htwc]
      by_cases hw : w = v
      · rw [if_pos hw, hw, List.count_cons_self, List.append_assoc,
          List.singleton_append]
        rfl
      · rw [if_neg hw, List.count_cons_of_ne hw]
    · have hgo : addConstraintGo c (v :: rest) csp =
          (some "LookupError: Variable in constraint not in CSP", csp) := by
        simp only [addConstraintGo]
        rw [if_neg hv]
      refine ⟨by rw [hgo], ?_⟩
      intro w
      rw [hgo]
      have htwc : List.takeWhile (fun x => decide (x ∈ csp.vars)) (v :: rest) = [] := by
        rw [List.takeWhile_cons, if_neg (by simpa using hv)]
      rw [htwc]
      simp

/-- C4 counterexample: on the one-variable problem cspZero (declared
variable 1) and the constraint badC over the variables 1 and 2, the
variable 2 is undeclared, so add_constraint raises LookupError; but the
registry entry of the variable 1 is changed by the failed call, refuting
the claim that the registry is left unchanged for every variable. -/
theorem add_constraint_counterexample :
    (1 ∈ badC.vars ∧ 2 ∈ badC.vars ∧ 2 ∉ cspZero.vars) ∧
      (add_constraint cspZero badC).1 =
        some "LookupError: Variable in constraint not in CSP" ∧
      ¬ (add_constraint cspZero badC).2.constraints 1 = cspZero.constraints 1 := by
  refine ⟨⟨by simp [badC], by simp [badC], by simp [cspZero]⟩, rfl, ?_⟩
  intro h
  have h2 : (add_constraint cspZero badC).2.constraints 1 = [badC] := rfl
  rw [h2] at h
  simp [cspZero] at h

/-- C4 amended: registering a constraint referencing at least one
undeclared variable raises the unknown-variable LookupError, but the
constraint registry is not rolled back: each registry entry gains one
copy of the constraint per occurrence of its variable in the prefix of
the constraint's variable list formed by the declared variables that
precede the first undeclared one, and is otherwise unchanged. -/
theorem add_constraint_partial_append (csp : CSP V D) (c : Constraint V D)
    (h : ∃ v ∈ c.vars, v ∉ csp.vars) :
    (add_constraint csp c).1 = some "LookupError: Variable in constraint not in CSP" ∧
      ∀ w, (add_constraint csp c).2.constraints w =
        csp.constraints w ++
          List.replicate ((c.vars.takeWhile (fun v => decide (v ∈ csp.vars))).count w) c :=
  addConstraintGo_partial c c.vars csp h

/-- C4 amended witness: on cspZero and badC the failed registration keeps
the error and appends badC exactly once to the registry entry of the
declared variable 1. -/
theorem add_constraint_partial_append_witness :
    (add_constraint cspZero badC).1 =
        some "LookupError: Variable in constraint not in CSP" ∧
      ∀ w, (add_constraint cspZero badC).2.constraints w =
        cspZero.constraints w ++
          List.replicate ((badC.vars.takeWhile (fun v => decide (v ∈ cspZero.vars))).count w) badC :=
  add_constraint_partial_append cspZero badC ⟨2, by simp [badC], by simp [cspZero]⟩

/-- C5: contract of the consistency check.  For every problem variable
and assignment containing it, consistent is true exactly when every
constraint registered for that variable is satisfied, vacuously true when
none is registered, false as soon as one is violated, and it examines
only the registry entry of that variable: any problem with the same entry
for the variable gives the same verdict. -/
theorem consistent_contract (csp : CSP V D) (v : V) (a : List (V × D))
    (hv : v ∈ csp.vars) (ha : hasKey a v = true) :
    (consistent csp v a = true ↔ ∀ c ∈ csp.constraints v, c.satisfied a = true) ∧
      (csp.constraints v = [] → consistent csp v a = true) ∧
      ((∃ c ∈ csp.constraints v, c.satisfied a = false) → consistent csp v a = false) ∧
      (∀ csp2 : CSP V D, csp2.constraints v = csp.constraints v →
        consistent csp2 v a = consistent csp v a) := by
  refine ⟨consistent_eq_true_iff csp v a, ?_, ?_, ?_⟩
  · intro h0
    rw [consistent, h0]
    rfl
  · intro hex
    obtain ⟨c, hc, hcf⟩ := hex
    by_cases hcon : consistent csp v a = true
    · have := (consistent_eq_true_iff csp v a).mp hcon c hc
      rw [hcf] at this
      exact absurd this Bool.false_ne_true
    · exact Bool.eq_false_iff.mpr hcon
  · intro csp2 h2
    rw [consistent, consistent, h2]

/-- C5 witness: the verdict of consistent on the variable 1 of the
two-variable different-values problem under the assignment mapping 1
to 0. -/
theorem consistent_contract_witness :
    (consistent cspNeq 1 [(1, 0)] = true ↔
        ∀ c ∈ cspNeq.constraints 1, c.satisfied [(1, 0)] = true) ∧
      (cspNeq.constraints 1 = [] → consistent cspNeq 1 [(1, 0)] = true) ∧
      ((∃ c ∈ cspNeq.constraints 1, c.satisfied [(1, 0)] = false) →
        consistent cspNeq 1 [(1, 0)] = false) ∧
      (∀ csp2 : CSP Nat Nat, csp2.constraints 1 = cspNeq.constraints 1 →
        consistent csp2 1 [(1, 0)] = consistent cspNeq 1 [(1, 0)]) :=
  consistent_contract cspNeq 1 [(1, 0)] (by decide) (by decide)

/-- C6: a problem in which some declared variable has an empty domain
never yields a complete assignment: with distinct declared variables the
search from the empty assignment returns absence, because the value loop
of that variable is empty and every branch eventually fails. -/
theorem backtracking_search_empty_domain (csp : CSP V D) (v0 : V)
    (hv : csp.vars.Nodup) (hmem : v0 ∈ csp.vars) (hdom : csp.domains v0 = []) :
    backtracking_search csp [] = .ok none := by
  obtain ⟨o, ho⟩ := btFuel_ok hv (csp.vars.length + 1) []
    (by rw [unassigned_nil]; exact Nat.lt_succ_self _) keys_nil_nodup (hasKey_nil_sub csp)
  rcases o with _ | r
  · exact ho
  · exfalso
    obtain ⟨hlen, hext, hkeys, hnd, hvals⟩ :=
      btFuel_sound_basic (csp.vars.length + 1) [] r ho keys_nil_nodup (hasKey_nil_sub csp)
    have hk : hasKey r v0 = true := hasKey_of_complete hnd hkeys hlen v0 hmem
    rcases hl : lookup r v0 with _ | d
    · rw [hasKey, hl] at hk
      simp at hk
    · rcases hvals v0 d hl with hk0 | hd0
      · rw [hasKey_nil] at hk0
        exact absurd hk0 Bool.false_ne_true
      · rw [hdom] at hd0
        simp at hd0

/-- C6 witness: the one-variable problem with an empty domain returns
absence. -/
theorem backtracking_search_empty_domain_witness :
    backtracking_search cspEmptyDom [] = .ok none :=
  backtracking_search_empty_domain cspEmptyDom 1 (by decide) (by decide) rfl

theorem mem_intRange {a b x : Int} : x ∈ intRange a b ↔ a ≤ x ∧ x < b := by
  simp only [intRange, List.mem_map, List.mem_range]
  constructor
  · rintro ⟨k, hk, rfl⟩
    simp only [Int.ofNat_eq_coe]
    constructor
    · omega
    · omega
  · intro h
    refine ⟨(x - a).toNat, by omega, ?_⟩
    simp only [Int.ofNat_eq_coe]
    omega

theorem natAbs_sub_comm (a b : Int) : (a - b).natAbs = (b - a).natAbs := by
  rw [← Int.natAbs_neg, Int.neg_sub]

/-- The loop structure of QueensConstraint.satisfied, unfolded: the check
succeeds exactly when every assigned pair, combined with every assigned
column strictly to its right within the board width, passes the row and
diagonal tests. -/
theorem queensSatisfied_char (cols : List Int) (a : List (Int × Int)) :
    queensSatisfied cols a = true ↔
      ∀ p ∈ a, ∀ q2c : Int, p.1 + 1 ≤ q2c → q2c < (cols.length : Int) + 1 →
        ∀ q2r, lookup a q2c = some q2r →
          ¬ p.2 = q2r ∧ ¬ (p.1 - q2c).natAbs = (p.2 - q2r).natAbs := by
  simp only [queensSatisfied, List.all_eq_true]
  constructor
  · intro h p hp q2c h1 h2 q2r hq
    have h4 := h p hp q2c (mem_intRange.mpr ⟨h1, h2⟩)
    rw [hq] at h4
    simp only [Bool.and_eq_true, decide_eq_true_eq] at h4
    exact h4
  · intro h p hp q2c hq2c
    obtain ⟨hge, hlt⟩ := mem_intRange.mp hq2c
    rcases hl : lookup a q2c with _ | q2r
    · rfl
    · simp only [Bool.and_eq_true, decide_eq_true_eq]
      exact h p hp q2c hge hlt q2r hl

/-- C7: QueensConstraint.satisfied, on assignments whose keys are distinct
columns of the board (between 1 and the number of columns), is true
exactly when every pair of distinct assigned columns has different rows
and a column distance different from the row distance; assignments with
at most one queen are vacuously satisfied.  Only the length of the stored
column list enters the check. -/
theorem queens_satisfied_iff (cols : List Int) (a : List (Int × Int))
    (hnd : (keys a).Nodup)
    (hkeys : ∀ v, hasKey a v = true → 1 ≤ v ∧ v ≤ (cols.length : Int)) :
    (queensSatisfied cols a = true ↔
      ∀ c1 r1 c2 r2 : Int, lookup a c1 = some r1 → lookup a c2 = some r2 →
        ¬ c1 = c2 → ¬ r1 = r2 ∧ ¬ (c1 - c2).natAbs = (r1 - r2).natAbs) ∧
    (a.length ≤ 1 → queensSatisfied cols a = true) := by
  constructor
  · rw [queensSatisfied_char]
    constructor
    · intro h c1 r1 c2 r2 h1 h2 hne
      rcases lt_trichotomy c1 c2 with hlt | heq | hgt
      · have hb2 : c2 ≤ (cols.length : Int) := (hkeys c2 (by simp [hasKey, h2])).2
        exact h (c1, r1) (mem_of_lookup_eq_some h1) c2
          (show c1 + 1 ≤ c2 by omega) (show c2 < (cols.length : Int) + 1 by omega) r2 h2
      · exact absurd heq hne
      · have hb1 : c1 ≤ (cols.length : Int) := (hkeys c1 (by simp [hasKey, h1])).2
        have hs := h (c2, r2) (mem_of_lookup_eq_some h2) c1
          (show c2 + 1 ≤ c1 by omega) (show c1 < (cols.length : Int) + 1 by omega) r1 h1
        constructor
        · intro he
          exact hs.1 he.symm
        · intro he
          apply hs.2
          rw [natAbs_sub_comm c2 c1, natAbs_sub_comm r2 r1]
          exact he
    · intro h p hp q2c hge hlt q2r hq
      have hp1 : lookup a p.1 = some p.2 := lookup_eq_some_of_mem hnd (by simpa using hp)
      exact h p.1 p.2 q2c q2r hp1 hq (by omega)
  · intro hlen1
    rw [queensSatisfied_char]
    intro p hp q2c hge hlt q2r hq
    exfalso
    have hmem2 : (q2c, q2r) ∈ a := mem_of_lookup_eq_some hq
    rcases a with _ | ⟨x, rest⟩
    · simp at hp
    · rcases rest with _ | ⟨y, t⟩
      · have hpx : p = x := by simpa using hp
        have hqx : (q2c, q2r) = x := by simpa using hmem2
        have hpq : p.1 = q2c := by
          rw [hpx, ← hqx]
        omega
      · simp at hlen1

/-- C7 witness: on the eight-column board with queens in column 1 row 2
and column 2 row 4, the check agrees with the pairwise characterization,
and the vacuous case is available. -/
theorem queens_satisfied_iff_witness :
    (queensSatisfied (intRange 1 9) [((1 : Int), (2 : Int)), (2, 4)] = true ↔
      ∀ c1 r1 c2 r2 : Int,
        lookup [((1 : Int), (2 : Int)), (2, 4)] c1 = some r1 →
        lookup [((1 : Int), (2 : Int)), (2, 4)] c2 = some r2 →
        ¬ c1 = c2 → ¬ r1 = r2 ∧ ¬ (c1 - c2).natAbs = (r1 - r2).natAbs) ∧
    (([((1 : Int), (2 : Int)), (2, 4)] : List (Int × Int)).length ≤ 1 →
      queensSatisfied (intRange 1 9) [((1 : Int), (2 : Int)), (2, 4)] = true) := by
  apply queens_satisfied_iff (intRange 1 9) [((1 : Int), (2 : Int)), (2, 4)] (by decide)
  intro v hv
  have h1 : v = 1 ∨ v = 2 := by
    by_cases ha : (1 : Int) = v
    · exact Or.inl ha.symm
    · by_cases hb : (2 : Int) = v
      · exact Or.inr hb.symm
      · simp [hasKey, lookup, ha, hb] at hv
  have hlen : ((intRange 1 9).length : Int) = 8 := by decide
  rcases h1 with rfl | rfl
  · exact ⟨by decide, by rw [hlen]; decide⟩
  · exact ⟨by decide, by rw [hlen]; decide⟩

/-- C8: idempotence of solving.  In the store model of Python dict
objects, running backtracking_search twice on the same dict object (in
particular the shared mutable default argument, which starts empty)
returns equal results: the first run leaves the object unchanged, and the
problem itself (variables, domains, constraint registry) is a pure value
the search cannot modify, so the second run retraces the same branches. -/
theorem backtracking_search_idempotent (csp : CSP V D) (dref : Nat)
    (store : Store V D) (href : dref < store.length) :
    (backtracking_search_heap csp dref
        (backtracking_search_heap csp dref store).2).1 =
      (backtracking_search_heap csp dref store).1 ∧
    ((backtracking_search_heap csp dref store).2)[dref]? = store[dref]? := by
  have hframe : StorePreserves store (backtracking_search_heap csp dref store).2 :=
    btHeap_frame (csp.vars.length + 1) dref store
  constructor
  · have h1 : (backtracking_search_heap csp dref store).1 =
        btFuel csp (csp.vars.length + 1) (storeGet store dref) :=
      btHeap_correspondence (csp.vars.length + 1) dref store href
    have href2 : dref < ((backtracking_search_heap csp dref store).2).length :=
      Nat.lt_of_lt_of_le href hframe.1
    have h2 : (backtracking_search_heap csp dref
        (backtracking_search_heap csp dref store).2).1 =
        btFuel csp (csp.vars.length + 1)
          (storeGet (backtracking_search_heap csp dref store).2 dref) :=
      btHeap_correspondence (csp.vars.length + 1) dref _ href2
    rw [h1, h2, storeGet_eq_of_preserves hframe href]
  · exact hframe.2 dref href

/-- C8 witness: on the one-variable problem with the default dict object
stored at address 0, the second run returns the result of the first and
the default object is untouched. -/
theorem backtracking_search_idempotent_witness :
    (backtracking_search_heap cspZero 0
        (backtracking_search_heap cspZero 0 [[]]).2).1 =
      (backtracking_search_heap cspZero 0 [[]]).1 ∧
    ((backtracking_search_heap cspZero 0 [[]]).2)[0]? = [[]][0]? :=
  backtracking_search_idempotent cspZero 0 [[]] (by decide)

/-- C9: no cross-branch leakage.  In the store model of Python dict
objects, a call to backtracking_search never mutates the dict object the
caller passed in, nor any other pre-existing object: every address that
existed before the call holds the same object afterwards, because each
frame extends only its own fresh copy. -/
theorem backtracking_search_no_mutation (csp : CSP V D) (ref : Nat)
    (store : Store V D) (href : ref < store.length) :
    ((backtracking_search_heap csp ref store).2)[ref]? = store[ref]? ∧
      ∀ i, i < store.length →
        ((backtracking_search_heap csp ref store).2)[i]? = store[i]? := by
  have hframe : StorePreserves store (backtracking_search_heap csp ref store).2 :=
    btHeap_frame (csp.vars.length + 1) ref store
  exact ⟨hframe.2 ref href, hframe.2⟩

/-- C9 witness: on the two-variable different-values problem with the
empty dict stored at address 0, the full search leaves that object
unchanged. -/
theorem backtracking_search_no_mutation_witness :
    ((backtracking_search_heap cspNeq 0 [[]]).2)[0]? = [[]][0]? ∧
      ∀ i, i < ([[]] : Store Nat Nat).length →
        ((backtracking_search_heap cspNeq 0 [[]]).2)[i]? = [[]][i]? :=
  backtracking_search_no_mutation cspNeq 0 [[]] (by decide)

/-- C10: whenever backtracking_search_2 is called with an incomplete
assignment leaving exactly one variable unassigned, the index access of
the second unassigned variable runs past the end of the one-element list
and the call fails with an IndexError instead of returning an assignment
or absence; it can therefore never assign the final remaining variable. -/
theorem backtracking_search_2_index_error (csp : CSP V D) (a : List (V × D))
    (hlen : ¬ a.length = csp.vars.length)
    (hone : (unassigned csp a).length = 1) :
    backtracking_search_2 csp a = .error "IndexError: list index out of range" := by
  obtain ⟨x, hx⟩ := List.length_eq_one.mp hone
  simp only [backtracking_search_2]
  rw [if_neg hlen, hx]

/-- C10 witness: on the one-variable problem started from the empty
assignment, exactly one variable is unassigned and the call fails with
the IndexError. -/
theorem backtracking_search_2_index_error_witness :
    backtracking_search_2 cspZero [] = .error "IndexError: list index out of range" :=
  backtracking_search_2_index_error cspZero [] (by decide) (by decide)

end Csp
